import Mathlib

/-!
Shallow embedding of the wmtiler arrangement engine (src/wmtiler.cpp):
the stable-order group registry, the grid layout calculator, the tiling
and move operations on the registry, the tiled-desktop eligibility test,
and the debounce scheduler of the daemon loop. Machine integers of the
source (`int`, `unsigned long`) are modelled by `Int` and `Nat`; the
values the program computes stay far from any overflow boundary.
-/

/-- A window identifier (`Window`, an `unsigned long` in the source). -/
abbrev Window := Nat

/-- One pass of `stableOrder` (src 456-465): walk `xs`, keep each element
still present in the `remaining` set and remove it from the set. The
`std::unordered_set` with its `remaining.erase(win) > 0` test is modelled
by a duplicate-free list. Returns the kept elements and what is left of
the set. -/
def orderPass : List Window → List Window → List Window × List Window
  | [], remaining => ([], remaining)
  | x :: xs, remaining =>
    if x ∈ remaining then
      let p := orderPass xs (remaining.erase x)
      (x :: p.1, p.2)
    else
      orderPass xs remaining

/-- `stableOrder(desktop, current)` (src 450-468) on explicit state: the
previously stored order comes in, the reconciled order comes out. The
`remaining` set is initialised with the elements of `current`. -/
def stableOrder (stored current : List Window) : List Window :=
  let p := orderPass stored current.dedup
  let q := orderPass current p.2
  p.1 ++ q.1

/-- The per-desktop stored orders (`g_windowOrder`, src 58). -/
abbrev Registry := Nat → Option (List Window)

/-- The registry of a freshly started process: no stored orders. -/
def Registry.emp : Registry := fun _ => none

/-- `g_windowOrder[desktop]`: `std::map::operator[]` yields an empty
vector when the key is absent. -/
def Registry.getOrd (reg : Registry) (d : Nat) : List Window :=
  (reg d).getD []

/-- Assignment `g_windowOrder[desktop] = ord`. -/
def Registry.store (reg : Registry) (d : Nat) (ord : List Window) : Registry :=
  fun e => if e = d then some ord else reg e

/-- `g_windowOrder.erase(desktop)` (src 607, 664). -/
def Registry.eraseOrd (reg : Registry) (d : Nat) : Registry :=
  fun e => if e = d then none else reg e

/-- `stableOrder` together with its store-back into the registry
(`stored = result`, src 466): the Registry operation the spec calls
`reconcile`. -/
def reconcile (reg : Registry) (d : Nat) (current : List Window) :
    List Window × Registry :=
  let r := stableOrder (reg.getOrd d) current
  (r, reg.store d r)

/-- `distribute(total, slots)` (src 512-523). C++ `int` division truncates
toward zero, hence `Int.tdiv`; `remainder` is written exactly as in the
source, `total - base * slots`. -/
def distribute (total slots : Int) : List Int :=
  if slots ≤ 0 then []
  else
    let base := Int.tdiv total slots
    let remainder := total - base * slots
    (List.range slots.toNat).map fun i : Nat =>
      base + if (i : Int) < remainder then 1 else 0

/-- The `while (remaining > 0)` loop of `buildRows` (src 543-548) on the
nonnegative remainder: `cols = remaining >= 3 ? 3 : remaining` gives a
row of three columns while three or more remain, a final row of one or
two otherwise, and nothing once the remainder is exhausted. -/
def buildRowsPass : Nat → List Int
  | 0 => []
  | 1 => [1]
  | 2 => [2]
  | (n + 3) => 3 :: buildRowsPass n

/-- `buildRows(count)` (src 525-550): special cases for one through six
windows, otherwise the greedy loop. For `count <= 0` the loop body never
runs, which `Int.toNat` (sending nonpositive values to zero) captures. -/
def buildRows (count : Int) : List Int :=
  if count = 1 then [1]
  else if count = 2 then [2]
  else if count = 3 then [3]
  else if count = 4 then [2, 2]
  else if count = 5 then [2, 3]
  else if count = 6 then [3, 3]
  else buildRowsPass count.toNat

/-- `DesktopLayout` (src 36-42). -/
structure DesktopLayout where
  marginLeft : Int
  marginRight : Int
  marginTop : Int
  marginBottom : Int
  gap : Int
deriving DecidableEq

/-- `Rect` (src 505-510). -/
structure Rect where
  x : Int
  y : Int
  width : Int
  height : Int
deriving DecidableEq

/-- The inner column loop of `computePositions` (src 576-582): one `Rect`
per width, the horizontal cursor advancing by `width + gap`, breaking
once `--remaining` reaches zero. Returns the emitted rects and the final
`remaining`. -/
def emitRow : List Int → Int → Int → Int → Int → Int → List Rect × Int
  | [], _, _, _, _, remaining => ([], remaining)
  | w :: ws, x, y, h, gap, remaining =>
    let r : Rect := ⟨x, y, w, h⟩
    if remaining - 1 = 0 then ([r], remaining - 1)
    else
      let p := emitRow ws (x + w + gap) y h gap (remaining - 1)
      (r :: p.1, p.2)

/-- The outer row loop of `computePositions` (src 568-584), walking the
row column counts together with the distributed row heights. -/
def emitRows : List Int → List Int → Int → Int → Int → Int → Int → List Rect
  | [], _, _, _, _, _, _ => []
  | _, [], _, _, _, _, _ => []
  | cols0 :: rows, rh :: rhs, remaining, y, usableWidth, gap, marginLeft =>
    if remaining ≤ 0 then []
    else
      let cols := min cols0 remaining
      let rowWidthRaw := usableWidth - gap * (cols - 1)
      let rowWidth := if rowWidthRaw < 0 then 0 else rowWidthRaw
      let p := emitRow (distribute rowWidth cols) marginLeft y rh gap remaining
      p.1 ++ emitRows rows rhs p.2 (y + rh + gap) usableWidth gap marginLeft

/-- `computePositions(count, screenW, screenH, layout)` (src 552-586). -/
def computePositions (count screenW screenH : Int) (layout : DesktopLayout) :
    List Rect :=
  if count ≤ 0 then []
  else
    let rows := buildRows count
    let usableWidth := max 0 (screenW - layout.marginLeft - layout.marginRight)
    let totalVertical := max 0 (screenH - layout.marginTop - layout.marginBottom)
    let usableHeightRaw := totalVertical - layout.gap * ((rows.length : Int) - 1)
    let usableHeight := if usableHeightRaw < 0 then 0 else usableHeightRaw
    let rowHeights := distribute usableHeight (rows.length : Int)
    emitRows rows rowHeights count layout.marginTop usableWidth layout.gap
      layout.marginLeft

/-- `tileWindows` (src 597-618): the registry effect plus the computed
geometry. `windows` stands for the `collectWindows` observation of the
group's live membership; the per-window X11 side effects are external. -/
def tileWindows (reg : Registry) (d : Nat) (windows : List Window)
    (screenW screenH : Int) (layout : DesktopLayout) : Registry × List Rect :=
  if windows = [] then (reg.eraseOrd d, [])
  else
    let p := reconcile reg d windows
    (p.2, computePositions (p.1.length : Int) screenW screenH layout)

/-- `std::iter_swap(it, std::next(it))`: swap the elements at positions
`i` and `i + 1`. -/
def swapAdj (l : List Window) (i : Nat) : List Window :=
  (l.set i (l.getD (i + 1) 0)).set (i + 1) (l.getD i 0)

/-- The order-manipulating core of `moveActiveWindow` (src 672-686):
locate the active window with `std::find`, no-op at the boundary,
otherwise swap with the neighbour in the requested direction. -/
def moveOrder (ordered : List Window) (a : Window) (forward : Bool) :
    Option (List Window) :=
  if a ∈ ordered then
    let i := List.indexOf a ordered
    if forward then
      if i + 1 = ordered.length then none else some (swapAdj ordered i)
    else
      if i = 0 then none else some (swapAdj ordered (i - 1))
  else none

/-- `moveActiveWindow` (src 656-690). `windows` is its own
`collectWindows` observation, `windows2` the one made by the nested
`tileWindows` call, and `active` the `getActiveWindow` answer. Returns
the final registry and the boolean result. -/
def moveActiveWindow (reg : Registry) (d : Nat) (forward : Bool)
    (windows : List Window) (active : Option Window) (windows2 : List Window)
    (screenW screenH : Int) (layout : DesktopLayout) : Registry × Bool :=
  if windows = [] then (reg.eraseOrd d, false)
  else
    let p := reconcile reg d windows
    match active with
    | none => (p.2, false)
    | some a =>
      match moveOrder p.1 a forward with
      | none => (p.2, false)
      | some newOrd =>
        ((tileWindows (p.2.store d newOrd) d windows2 screenW screenH layout).1,
          true)

/-- `shouldTile` (src 641-643); the `std::set` of tiled desktops is
modelled by its element list. -/
def shouldTile (desktop : Nat) (tiledDesktops : List Nat) : Bool :=
  tiledDesktops.isEmpty || tiledDesktops.contains desktop

/-- `defaultTiledDesktops` (src 620-631), parameterised by the response
to the `_NET_NUMBER_OF_DESKTOPS` query; the loop inserts desktops `1`
through `total - 1`. -/
def defaultTiledDesktops (total : Option Nat) : List Nat :=
  match total with
  | none => [0]
  | some t => if t ≤ 1 then [0] else List.range' 1 (t - 1)

/-- An observable event of the daemon loop (src 741-767): a structural
change notification processed at time `t`, or a control-loop tick at
time `t`. -/
inductive Ev where
  | notify (t : Nat)
  | tick (t : Nat)
deriving DecidableEq

/-- One step of the daemon's debounce state: a structural change
notification overwrites the pending due time with `t + D` (src 751); a
tick fires and clears the pending time exactly when it is due
(src 758-764). Returns the new state and the fire time, if any. -/
def schedStep (D : Nat) (s : Option Nat) : Ev → Option Nat × Option Nat
  | .notify t => (some (t + D), none)
  | .tick t =>
    match s with
    | some due => if due ≤ t then (none, some t) else (some due, none)
    | none => (none, none)

/-- Run the debounce state over a trace of events, collecting the times
at which a recompute fires. -/
def schedRun (D : Nat) (s : Option Nat) : List Ev → Option Nat × List Nat
  | [] => (s, [])
  | e :: es =>
    let p := schedStep D s e
    let q := schedRun D p.1 es
    (q.1, p.2.toList ++ q.2)

/-- A registry-mutating operation of the engine: one `tileWindows` apply
or one `moveActiveWindow` request, with its external observations. -/
inductive EngineOp where
  | tile (d : Nat) (windows : List Window) (screenW screenH : Int)
      (layout : DesktopLayout)
  | move (d : Nat) (forward : Bool) (windows : List Window)
      (active : Option Window) (windows2 : List Window) (screenW screenH : Int)
      (layout : DesktopLayout)

/-- The registry effect of one engine operation. -/
def runOp (reg : Registry) : EngineOp → Registry
  | .tile d w sw sh lay => (tileWindows reg d w sw sh lay).1
  | .move d f w a w2 sw sh lay => (moveActiveWindow reg d f w a w2 sw sh lay).1

/-- The registry invariant of claim C7: every stored order is non-empty. -/
def goodReg (reg : Registry) : Prop :=
  ∀ d l, reg d = some l → l ≠ []

theorem orderPass_nil (xs : List Window) : orderPass xs [] = ([], []) := by
  induction xs with
  | nil => rfl
  | cons x xs ih => simp [orderPass, ih]

theorem orderPass_spec (xs : List Window) :
    ∀ remaining : List Window, remaining.Nodup →
      (orderPass xs remaining).1.Nodup ∧
      (orderPass xs remaining).2.Nodup ∧
      (∀ a, a ∈ remaining ↔
        a ∈ (orderPass xs remaining).1 ∨ a ∈ (orderPass xs remaining).2) ∧
      (∀ a ∈ (orderPass xs remaining).1, a ∉ (orderPass xs remaining).2) := by
  induction xs with
  | nil =>
    intro rem hrem
    refine ⟨List.nodup_nil, hrem, fun a => ?_, by simp [orderPass]⟩
    simp [orderPass]
  | cons x xs ih =>
    intro rem hrem
    by_cases hx : x ∈ rem
    · have hrem' : (rem.erase x).Nodup := hrem.erase x
      obtain ⟨h1, h2, h3, h4⟩ := ih (rem.erase x) hrem'
      have hsub1 : ∀ a ∈ (orderPass xs (rem.erase x)).1, a ∈ rem.erase x :=
        fun a ha => (h3 a).mpr (Or.inl ha)
      have hsub2 : ∀ a ∈ (orderPass xs (rem.erase x)).2, a ∈ rem.erase x :=
        fun a ha => (h3 a).mpr (Or.inr ha)
      simp only [orderPass, if_pos hx]
      refine ⟨?_, h2, ?_, ?_⟩
      · refine List.nodup_cons.mpr ⟨fun hmem => ?_, h1⟩
        exact hrem.not_mem_erase (hsub1 x hmem)
      · intro a
        by_cases hax : a = x
        · subst hax
          exact ⟨fun _ => Or.inl (List.mem_cons_self a _), fun _ => hx⟩
        · have := h3 a
          rw [hrem.mem_erase_iff] at this
          simp only [List.mem_cons]
          constructor
          · intro ha
            rcases (this.mp ⟨hax, ha⟩) with h | h
            · exact Or.inl (Or.inr h)
            · exact Or.inr h
          · rintro (h | h)
            · rcases h with h | h
              · exact absurd h hax
              · exact (this.mpr (Or.inl h)).2
            · exact (this.mpr (Or.inr h)).2
      · intro a ha
        rcases List.mem_cons.mp ha with rfl | ha'
        · intro hmem
          exact hrem.not_mem_erase (hsub2 a hmem)
        · exact h4 a ha'
    · simp only [orderPass, if_neg hx]
      obtain ⟨h1, h2, h3, h4⟩ := ih rem hrem
      exact ⟨h1, h2, h3, h4⟩

theorem orderPass_mem_fst (xs : List Window) :
    ∀ (rem : List Window) (a : Window), a ∈ xs → a ∈ rem →
      a ∈ (orderPass xs rem).1 := by
  induction xs with
  | nil => simp
  | cons x xs ih =>
    intro rem a ha har
    by_cases hx : x ∈ rem
    · simp only [orderPass, if_pos hx]
      by_cases hax : a = x
      · exact hax ▸ List.mem_cons_self x _
      · have ha' : a ∈ xs := by
          rcases List.mem_cons.mp ha with h | h
          · exact absurd h hax
          · exact h
        exact List.mem_cons_of_mem x
          (ih (rem.erase x) a ha' ((List.mem_erase_of_ne hax).mpr har))
    · simp only [orderPass, if_neg hx]
      have ha' : a ∈ xs := by
        rcases List.mem_cons.mp ha with h | h
        · exact absurd (h ▸ har) hx
        · exact h
      exact ih rem a ha' har

theorem orderPass_fst_of_nodup (xs : List Window) :
    ∀ rem : List Window, xs.Nodup →
      (orderPass xs rem).1 = xs.filter (fun a => a ∈ rem) := by
  induction xs with
  | nil => intro rem _; rfl
  | cons x xs ih =>
    intro rem hx
    obtain ⟨hnx, hxs⟩ := List.nodup_cons.mp hx
    by_cases hmem : x ∈ rem
    · simp only [orderPass, if_pos hmem]
      rw [List.filter_cons_of_pos (by simpa using hmem), ih (rem.erase x) hxs]
      congr 1
      refine List.filter_congr fun a ha => ?_
      have hax : a ≠ x := fun h => hnx (h ▸ ha)
      simp [List.mem_erase_of_ne hax]
    · simp only [orderPass, if_neg hmem]
      rw [List.filter_cons_of_neg (by simpa using hmem)]
      exact ih rem hxs

theorem stableOrder_eq_filter (stored current : List Window)
    (hs : stored.Nodup) (hc : current.Nodup) :
    stableOrder stored current =
      stored.filter (fun a => a ∈ current) ++
        current.filter (fun a => a ∉ stored) := by
  have hd : current.dedup = current := List.dedup_eq_self.mpr hc
  obtain ⟨_, h2, h3, _⟩ := orderPass_spec stored current.dedup (List.nodup_dedup current)
  have hfst : (orderPass stored current.dedup).1 =
      stored.filter (fun a => a ∈ current) := by
    rw [orderPass_fst_of_nodup stored current.dedup hs]
    exact List.filter_congr fun a _ => by simp [List.mem_dedup]
  have hsnd_mem : ∀ a, a ∈ (orderPass stored current.dedup).2 ↔
      (a ∈ current ∧ a ∉ stored) := by
    intro a
    constructor
    · intro ha
      have harem : a ∈ current.dedup := (h3 a).mpr (Or.inr ha)
      have hnot1 : a ∉ (orderPass stored current.dedup).1 := by
        intro hmem
        obtain ⟨_, _, _, h4⟩ :=
          orderPass_spec stored current.dedup (List.nodup_dedup current)
        exact h4 a hmem ha
      rw [hfst] at hnot1
      refine ⟨List.mem_dedup.mp harem, fun hst => hnot1 ?_⟩
      simp only [List.mem_filter]
      exact ⟨hst, by simpa using List.mem_dedup.mp harem⟩
    · rintro ⟨hcur, hst⟩
      have harem : a ∈ current.dedup := List.mem_dedup.mpr hcur
      rcases (h3 a).mp harem with h | h
      · rw [hfst] at h
        exact absurd (List.mem_filter.mp h).1 hst
      · exact h
  have hq : (orderPass current (orderPass stored current.dedup).2).1 =
      current.filter (fun a => a ∉ stored) := by
    rw [orderPass_fst_of_nodup current _ hc]
    exact List.filter_congr fun a ha => by
      simp [hsnd_mem a, ha]
  show (orderPass stored current.dedup).1 ++
      (orderPass current (orderPass stored current.dedup).2).1 = _
  rw [hfst, hq]

theorem stableOrder_nodup (stored current : List Window) :
    (stableOrder stored current).Nodup := by
  obtain ⟨h1, h2, h3, h4⟩ :=
    orderPass_spec stored current.dedup (List.nodup_dedup current)
  obtain ⟨g1, _, g3, _⟩ := orderPass_spec current _ h2
  refine List.Nodup.append h1 g1 fun a ha hb => ?_
  exact h4 a ha ((g3 a).mpr (Or.inl hb))

theorem stableOrder_mem (stored current : List Window) (a : Window) :
    a ∈ stableOrder stored current ↔ a ∈ current := by
  obtain ⟨h1, h2, h3, h4⟩ :=
    orderPass_spec stored current.dedup (List.nodup_dedup current)
  obtain ⟨g1, _, g3, _⟩ := orderPass_spec current _ h2
  constructor
  · intro ha
    rcases List.mem_append.mp ha with h | h
    · exact List.mem_dedup.mp ((h3 a).mpr (Or.inl h))
    · exact List.mem_dedup.mp ((h3 a).mpr (Or.inr ((g3 a).mpr (Or.inl h))))
  · intro ha
    have harem : a ∈ current.dedup := List.mem_dedup.mpr ha
    rcases (h3 a).mp harem with h | h
    · exact List.mem_append.mpr (Or.inl h)
    · exact List.mem_append.mpr
        (Or.inr (orderPass_mem_fst current _ a ha h))

theorem stableOrder_fixed (R current : List Window) (hR : R.Nodup)
    (hmem : ∀ a, a ∈ R ↔ a ∈ current) : stableOrder R current = R := by
  obtain ⟨h1, h2, h3, h4⟩ :=
    orderPass_spec R current.dedup (List.nodup_dedup current)
  have hfst : (orderPass R current.dedup).1 = R := by
    rw [orderPass_fst_of_nodup R current.dedup hR]
    refine List.filter_eq_self.mpr fun a ha => ?_
    simp [List.mem_dedup, (hmem a).mp ha]
  have hsnd : (orderPass R current.dedup).2 = [] := by
    refine List.eq_nil_iff_forall_not_mem.mpr fun a ha => ?_
    have harem : a ∈ current.dedup := (h3 a).mpr (Or.inr ha)
    have haR : a ∈ R := (hmem a).mpr (List.mem_dedup.mp harem)
    exact h4 a (by rw [hfst]; exact haR) ha
  show (orderPass R current.dedup).1 ++
      (orderPass current (orderPass R current.dedup).2).1 = R
  rw [hsnd, orderPass_nil, hfst]
  exact List.append_nil R

theorem Registry.store_self (reg : Registry) (d : Nat) (ord : List Window) :
    reg.store d ord d = some ord := by
  simp [Registry.store]

theorem Registry.getOrd_store_self (reg : Registry) (d : Nat)
    (ord : List Window) : (reg.store d ord).getOrd d = ord := by
  simp [Registry.store, Registry.getOrd]

/-- Claim C1: for every group, stored order and duplicate-free observed
membership list, `reconcile` returns the stored elements still present
in the observation, in stored order, followed by the new elements in
observation order, and stores the result as the group's new order; with
stored order `[A, B]` the observation `[A, B, C]` yields `[A, B, C]`,
and with stored order `[A, B, C]` the observation `[A, C]` yields
`[A, C]`. -/
theorem C1_reconcile_stable :
    (∀ (reg : Registry) (g : Nat) (stored M : List Window),
      reg g = some stored → stored.Nodup → M.Nodup →
      (reconcile reg g M).1 =
        stored.filter (fun a => a ∈ M) ++ M.filter (fun a => a ∉ stored) ∧
      (reconcile reg g M).2 g = some ((reconcile reg g M).1)) ∧
    stableOrder [0, 1] [0, 1, 2] = [0, 1, 2] ∧
    stableOrder [0, 1, 2] [0, 2] = [0, 2] := by
  refine ⟨fun reg g stored M hreg hs hM => ⟨?_, ?_⟩, by decide, by decide⟩
  · show stableOrder (reg.getOrd g) M = _
    rw [show reg.getOrd g = stored by simp [Registry.getOrd, hreg]]
    exact stableOrder_eq_filter stored M hs hM
  · exact Registry.store_self reg g (stableOrder (reg.getOrd g) M)

theorem C1_reconcile_stable_w :
    (reconcile (Registry.emp.store 0 [1, 2]) 0 [2, 3]).1 =
      ([1, 2] : List Window).filter (fun a => a ∈ [2, 3]) ++
        ([2, 3] : List Window).filter (fun a => a ∉ [1, 2]) ∧
    (reconcile (Registry.emp.store 0 [1, 2]) 0 [2, 3]).2 0 =
      some ((reconcile (Registry.emp.store 0 [1, 2]) 0 [2, 3]).1) :=
  C1_reconcile_stable.1 (Registry.emp.store 0 [1, 2]) 0 [1, 2] [2, 3] rfl
    (by decide) (by decide)

/-- Claim C8: reconciliation is idempotent — a second `reconcile` with
the same membership list returns the same order — and the recompute
(reconcile followed by `computePositions` at unchanged screen size and
layout) is idempotent on the produced rectangles. -/
theorem C8_recompute_idempotent :
    ∀ (reg : Registry) (g : Nat) (M : List Window) (screenW screenH : Int)
      (lay : DesktopLayout),
      (reconcile ((reconcile reg g M).2) g M).1 = (reconcile reg g M).1 ∧
      computePositions (((reconcile ((reconcile reg g M).2) g M).1.length : Int))
          screenW screenH lay =
        computePositions (((reconcile reg g M).1.length : Int)) screenW screenH
          lay := by
  intro reg g M screenW screenH lay
  have hord : (reconcile ((reconcile reg g M).2) g M).1 = (reconcile reg g M).1 := by
    show stableOrder
        ((reg.store g (stableOrder (reg.getOrd g) M)).getOrd g) M = _
    rw [Registry.getOrd_store_self]
    exact stableOrder_fixed _ M (stableOrder_nodup _ M)
      (fun a => stableOrder_mem _ M a)
  exact ⟨hord, by rw [hord]⟩

/-- Claim C10: for every stored order and every observed list, even one
with duplicates, the reconciled order contains each window at most once
and only windows that occur in the observed list. -/
theorem C10_reconcile_invariant :
    ∀ stored current : List Window,
      (stableOrder stored current).Nodup ∧
      ∀ a, a ∈ stableOrder stored current → a ∈ current := by
  intro stored current
  exact ⟨stableOrder_nodup stored current,
    fun a ha => (stableOrder_mem stored current a).mp ha⟩

theorem C10_reconcile_invariant_w :
    (stableOrder [1, 1, 2] [2, 2, 3]).Nodup ∧ (2 : Window) ∈ [2, 2, 3] :=
  ⟨(C10_reconcile_invariant [1, 1, 2] [2, 2, 3]).1,
    (C10_reconcile_invariant [1, 1, 2] [2, 2, 3]).2 2 (by decide)⟩

theorem sum_map_indicator (r : Int) :
    ∀ n : Nat,
      ((List.range n).map fun i : Nat =>
          if (i : Int) < r then (1 : Int) else 0).sum =
        min (max r 0) (n : Int) := by
  intro n
  induction n with
  | zero => simp
  | succ n ih =>
    rw [List.range_succ, List.map_append, List.sum_append, ih]
    by_cases h : (n : Int) < r
    · simp only [List.map_cons, List.map_nil, List.sum_cons, List.sum_nil,
        if_pos h]
      push_cast
      omega
    · simp only [List.map_cons, List.map_nil, List.sum_cons, List.sum_nil,
        if_neg h]
      push_cast
      omega

theorem sum_map_base_add (base : Int) (f : Nat → Int) :
    ∀ n : Nat,
      ((List.range n).map fun i : Nat => base + f i).sum =
        (n : Int) * base + ((List.range n).map f).sum := by
  intro n
  induction n with
  | zero => simp
  | succ n ih =>
    rw [List.range_succ, List.map_append, List.sum_append, ih, List.map_append,
      List.sum_append]
    simp only [List.map_cons, List.map_nil, List.sum_cons, List.sum_nil]
    push_cast
    ring

/-- Claim C2 (amended): `distribute(total, slots)` returns the empty list
for `slots <= 0`; for `slots > 0` and a non-negative `total` it returns
exactly `slots` non-negative integers, entry `i` being
`total / slots` plus one extra unit when `i < total mod slots`, whose
sum is `total`; `distribute(10, 3) = [4, 3, 3]` and
`distribute(0, 3) = [0, 0, 0]`. -/
theorem C2_distribute_partition :
    (∀ total slots : Int, slots ≤ 0 → distribute total slots = []) ∧
    (∀ total slots : Int, 0 < slots → 0 ≤ total →
      (distribute total slots).length = slots.toNat ∧
      (∀ i : Nat, i < slots.toNat →
        (distribute total slots).getD i 0 =
          total / slots + if (i : Int) < total % slots then 1 else 0) ∧
      (∀ r ∈ distribute total slots, 0 ≤ r) ∧
      (distribute total slots).sum = total) ∧
    distribute 10 3 = [4, 3, 3] ∧ distribute 0 3 = [0, 0, 0] := by
  refine ⟨fun total slots hle => by simp [distribute, hle],
    fun total slots hpos htot => ?_, by decide, by decide⟩
  have hne : ¬slots ≤ 0 := not_le.mpr hpos
  have hremod : total - total / slots * slots = total % slots := by
    rw [Int.emod_def]
    ring
  have hdist : distribute total slots =
      (List.range slots.toNat).map
        (fun i : Nat =>
          total / slots + if (i : Int) < total % slots then 1 else 0) := by
    simp only [distribute, if_neg hne]
    rw [Int.tdiv_eq_ediv htot hpos.le, hremod]
  have hmodnn : 0 ≤ total % slots := Int.emod_nonneg total (by omega)
  have hmodlt : total % slots < slots := Int.emod_lt_of_pos total hpos
  refine ⟨by rw [hdist]; simp, ?_, ?_, ?_⟩
  · intro i hi
    rw [hdist]
    rw [List.getD_eq_getElem _ _ (by simpa using hi)]
    simp
  · intro r hr
    rw [hdist] at hr
    obtain ⟨i, _, rfl⟩ := List.mem_map.mp hr
    have hq : 0 ≤ total / slots := Int.ediv_nonneg htot hpos.le
    by_cases h : (i : Int) < total % slots <;> simp [h] <;> omega
  · rw [hdist, sum_map_base_add, sum_map_indicator]
    have hcast : ((slots.toNat : Nat) : Int) = slots := Int.toNat_of_nonneg hpos.le
    rw [hcast, max_eq_left hmodnn, min_eq_left hmodlt.le]
    have := Int.ediv_add_emod total slots
    linarith [this, mul_comm slots (total / slots)]

theorem C2_distribute_partition_w :
    (distribute 10 3).length = (3 : Int).toNat ∧
    (distribute 10 3).getD 0 0 =
      10 / 3 + (if (0 : Int) < 10 % 3 then 1 else 0) ∧
    (0 : Int) ≤ 4 ∧ (distribute 10 3).sum = 10 := by
  obtain ⟨hlen, hget, hnn, hsum⟩ :=
    C2_distribute_partition.2.1 10 3 (by decide) (by decide)
  exact ⟨hlen, hget 0 (by decide), hnn 4 (by decide), hsum⟩

/-- Claim C2, as stated, is false for a negative total: the source takes
C++ `int` arguments, and `distribute(-3, 2)` yields `[-1, -1]`, whose
entries are negative and whose sum is `-2`, not `-3`. -/
theorem C2_distribute_partition_cex :
    distribute (-3) 2 = [-1, -1] ∧ (distribute (-3) 2).sum = -2 ∧
    ((-2 : Int) = -3 → False) ∧ ∃ r ∈ distribute (-3) 2, r < 0 := by
  decide

theorem buildRowsPass_eq (n : Nat) :
    buildRowsPass n =
      List.replicate (n / 3) 3 ++
        if n % 3 = 0 then [] else [((n % 3 : Nat) : Int)] := by
  induction n using Nat.strong_induction_on with
  | _ n ih =>
    match n with
    | 0 => decide
    | 1 => decide
    | 2 => decide
    | (m + 3) =>
      have ihm := ih m (by omega)
      show 3 :: buildRowsPass m = _
      rw [ihm]
      have e1 : (m + 3) / 3 = m / 3 + 1 := by omega
      have e2 : (m + 3) % 3 = m % 3 := by omega
      rw [e1, e2, List.replicate_succ, List.cons_append]

theorem buildRowsPass_sum (n : Nat) : (buildRowsPass n).sum = (n : Int) := by
  rw [buildRowsPass_eq, List.sum_append, List.sum_replicate, nsmul_eq_mul]
  by_cases h : n % 3 = 0
  · simp only [if_pos h, List.sum_nil]
    omega
  · simp only [if_neg h, List.sum_cons, List.sum_nil]
    omega

theorem buildRows_eq_pass_of_gt (count : Int) (hc : 6 < count) :
    buildRows count = buildRowsPass count.toNat := by
  simp only [buildRows]
  rw [if_neg (by omega), if_neg (by omega), if_neg (by omega), if_neg (by omega),
    if_neg (by omega), if_neg (by omega)]

/-- Claim C5: `buildRows` returns `[1], [2], [3], [2,2], [2,3], [3,3]` for
counts one through six; for every count above six it emits rows of three
columns until fewer than three remain, then one final row with the
remainder (`buildRows(7) = [3,3,1]`); and for every positive count the
row column counts sum to the count. -/
theorem C5_buildRows_structure :
    buildRows 1 = [1] ∧ buildRows 2 = [2] ∧ buildRows 3 = [3] ∧
    buildRows 4 = [2, 2] ∧ buildRows 5 = [2, 3] ∧ buildRows 6 = [3, 3] ∧
    (∀ n : Nat, 6 < n →
      buildRows (n : Int) =
        List.replicate (n / 3) 3 ++
          if n % 3 = 0 then [] else [((n % 3 : Nat) : Int)]) ∧
    buildRows 7 = [3, 3, 1] ∧
    (∀ count : Int, 0 < count → (buildRows count).sum = count) := by
  refine ⟨by decide, by decide, by decide, by decide, by decide, by decide,
    fun n hn => ?_, by decide, fun count hc => ?_⟩
  · rw [buildRows_eq_pass_of_gt (n : Int) (by omega),
      show ((n : Int)).toNat = n by omega]
    exact buildRowsPass_eq n
  · by_cases h6 : count ≤ 6
    · interval_cases count <;> decide
    · rw [buildRows_eq_pass_of_gt count (by omega), buildRowsPass_sum]
      omega

theorem C5_buildRows_structure_w :
    buildRows ((9 : Nat) : Int) =
      List.replicate (9 / 3) 3 ++
        (if 9 % 3 = 0 then [] else [((9 % 3 : Nat) : Int)]) ∧
    (buildRows 10).sum = 10 :=
  ⟨C5_buildRows_structure.2.2.2.2.2.2.1 9 (by decide),
    C5_buildRows_structure.2.2.2.2.2.2.2.2 10 (by decide)⟩

/-- Claim C3: `computePositions(4, 1920, 1080, {0,0,0,0,0})` returns four
960 by 540 rectangles at `(0,0), (960,0), (0,540), (960,540)`, and
`computePositions(5, 1920, 1080, {8,8,8,8,8})` returns two 948 by 528
rectangles at `(8,8), (964,8)` followed by rectangles of widths 630, 629,
629 and height 528 at `(8,544), (646,544), (1283,544)`. -/
theorem C3_computePositions_examples :
    computePositions 4 1920 1080 ⟨0, 0, 0, 0, 0⟩ =
      [⟨0, 0, 960, 540⟩, ⟨960, 0, 960, 540⟩, ⟨0, 540, 960, 540⟩,
        ⟨960, 540, 960, 540⟩] ∧
    computePositions 5 1920 1080 ⟨8, 8, 8, 8, 8⟩ =
      [⟨8, 8, 948, 528⟩, ⟨964, 8, 948, 528⟩, ⟨8, 544, 630, 528⟩,
        ⟨646, 544, 629, 528⟩, ⟨1283, 544, 629, 528⟩] := by
  constructor <;> decide

/-- Claim C6, as stated, is false: with an empty configured tiled set the
per-tick test `shouldTile` accepts every group, including group 0; the
startup default set contains group 0 when the reported desktop count is
1; and under the default set for 3 desktops, group 5 is not tiled even
though it is not group 0. -/
theorem C6_tiled_eligibility_cex :
    shouldTile 0 [] = true ∧ defaultTiledDesktops (some 1) = [0] ∧
    shouldTile 5 (defaultTiledDesktops (some 3)) = false := by
  decide

/-- Claim C6 (amended): with an empty configured tiled set, the per-tick
eligibility test treats every group, including group 0, as tiled; the
startup default tiled set, which replaces an empty configured set, is
the singleton of group 0 when the reported desktop count is absent or at
most 1, and `1, ..., N - 1` when the count `N` exceeds 1 — under which a
group `g` is tiled exactly when `1 <= g <= N - 1`. -/
theorem C6_tiled_eligibility :
    (∀ g : Nat, shouldTile g [] = true) ∧
    defaultTiledDesktops none = [0] ∧
    (∀ t : Nat, t ≤ 1 → defaultTiledDesktops (some t) = [0]) ∧
    (∀ t : Nat, 1 < t →
      defaultTiledDesktops (some t) = List.range' 1 (t - 1)) ∧
    (∀ g t : Nat, 1 < t →
      (shouldTile g (defaultTiledDesktops (some t)) = true ↔
        1 ≤ g ∧ g ≤ t - 1)) := by
  have hd : ∀ t : Nat, 1 < t →
      defaultTiledDesktops (some t) = List.range' 1 (t - 1) := by
    intro t ht
    simp only [defaultTiledDesktops]
    rw [if_neg (by omega)]
  refine ⟨fun g => rfl, rfl, fun t ht => by simp [defaultTiledDesktops, ht],
    hd, fun g t ht => ?_⟩
  rw [hd t ht]
  simp only [shouldTile, Bool.or_eq_true, List.isEmpty_iff,
    List.range'_eq_nil, List.elem_iff, List.mem_range'_1]
  omega

theorem C6_tiled_eligibility_w :
    defaultTiledDesktops (some 3) = List.range' 1 2 ∧
    (shouldTile 2 (defaultTiledDesktops (some 3)) = true ↔ 1 ≤ 2 ∧ 2 ≤ 2) :=
  ⟨C6_tiled_eligibility.2.2.2.1 3 (by decide),
    C6_tiled_eligibility.2.2.2.2 2 3 (by decide)⟩

theorem swapAdj_cons (a : Window) (t : List Window) (i : Nat) :
    swapAdj (a :: t) (i + 1) = a :: swapAdj t i := by
  simp [swapAdj, List.getD_cons_succ]

theorem swapAdj_eq (l : List Window) :
    ∀ (i : Nat) (h : i + 1 < l.length),
      swapAdj l i =
        l.take i ++ l.get ⟨i + 1, h⟩ :: l.get ⟨i, by omega⟩ :: l.drop (i + 2) := by
  induction l with
  | nil => intro i h; simp at h
  | cons a t ih =>
    intro i h
    match i with
    | 0 =>
      match t, h with
      | b :: t2, _ => rfl
    | (j + 1) =>
      rw [swapAdj_cons, ih j (by simpa using h)]
      rfl

theorem take_drop_split (l : List Window) (i : Nat) (h : i + 1 < l.length) :
    l = l.take i ++ l.get ⟨i, by omega⟩ :: l.get ⟨i + 1, h⟩ :: l.drop (i + 2) := by
  conv_lhs => rw [← List.take_append_drop i l]
  congr 1
  rw [List.drop_eq_getElem_cons (show i < l.length by omega),
    List.drop_eq_getElem_cons (show i + 1 < l.length from h)]
  rfl

theorem swapAdj_perm (l : List Window) (i : Nat) (h : i + 1 < l.length) :
    (swapAdj l i).Perm l := by
  rw [swapAdj_eq l i h]
  conv_rhs => rw [take_drop_split l i h]
  exact List.Perm.append_left _ (List.Perm.swap _ _ _)

theorem moveOrder_some_perm (ord : List Window) (a : Window) (fwd : Bool)
    (newOrd : List Window) (h : moveOrder ord a fwd = some newOrd) :
    newOrd.Perm ord := by
  by_cases hmem : a ∈ ord
  · simp only [moveOrder, if_pos hmem] at h
    have hilt : List.indexOf a ord < ord.length :=
      List.indexOf_lt_length.mpr hmem
    cases fwd
    · simp only [Bool.false_eq_true, if_false] at h
      by_cases h0 : List.indexOf a ord = 0
      · rw [if_pos h0] at h
        exact absurd h (by simp)
      · rw [if_neg h0] at h
        have hb : List.indexOf a ord - 1 + 1 < ord.length := by omega
        have := swapAdj_perm ord (List.indexOf a ord - 1) hb
        rw [Option.some_inj.mp h] at this
        exact this
    · simp only [if_true] at h
      by_cases hend : List.indexOf a ord + 1 = ord.length
      · rw [if_pos hend] at h
        exact absurd h (by simp)
      · rw [if_neg hend] at h
        have hb : List.indexOf a ord + 1 < ord.length := by omega
        have := swapAdj_perm ord (List.indexOf a ord) hb
        rw [Option.some_inj.mp h] at this
        exact this
  · simp only [moveOrder, if_neg hmem] at h
    exact absurd h (by simp)

theorem tileWindows_fst_of_ne_nil (reg : Registry) (d : Nat) (w : List Window)
    (sw sh : Int) (lay : DesktopLayout) (hw : w ≠ []) :
    (tileWindows reg d w sw sh lay).1 =
      reg.store d (stableOrder (reg.getOrd d) w) := by
  simp only [tileWindows, if_neg hw]
  rfl

/-- Claim C4: a move request for a window absent from the group's current
order is a no-op; a move toward the start when the window is first, or
toward the end when it is last, is a no-op that leaves the stored order
unchanged; otherwise the window is swapped with its immediate neighbour
in the requested direction, the resulting order is stored in the
registry, and the operation reports success. -/
theorem C4_move_swap :
    (∀ (ordered : List Window) (a : Window) (fwd : Bool),
      a ∉ ordered → moveOrder ordered a fwd = none) ∧
    (∀ (ordered : List Window) (a : Window), ordered.Nodup →
      ∀ (i : Nat) (hi : i < ordered.length), ordered.get ⟨i, hi⟩ = a →
        (i + 1 = ordered.length → moveOrder ordered a true = none) ∧
        (i = 0 → moveOrder ordered a false = none) ∧
        (∀ h2 : i + 1 < ordered.length,
          moveOrder ordered a true =
            some (ordered.take i ++ ordered.get ⟨i + 1, h2⟩ ::
              ordered.get ⟨i, hi⟩ :: ordered.drop (i + 2))) ∧
        (∀ (j : Nat) (hij : i = j + 1),
          moveOrder ordered a false =
            some (ordered.take j ++ ordered.get ⟨i, hi⟩ ::
              ordered.get ⟨j, by omega⟩ :: ordered.drop (i + 1)))) ∧
    (∀ (reg : Registry) (d : Nat) (fwd : Bool) (w : List Window) (a : Window)
        (screenW screenH : Int) (lay : DesktopLayout), w ≠ [] →
      (moveOrder (reconcile reg d w).1 a fwd = none →
        moveActiveWindow reg d fwd w (some a) w screenW screenH lay =
          ((reconcile reg d w).2, false)) ∧
      (∀ newOrd, moveOrder (reconcile reg d w).1 a fwd = some newOrd →
        (moveActiveWindow reg d fwd w (some a) w screenW screenH lay).2 =
          true ∧
        (moveActiveWindow reg d fwd w (some a) w screenW screenH lay).1 d =
          some newOrd)) := by
  refine ⟨fun ordered a fwd ha => by simp [moveOrder, ha], ?_, ?_⟩
  · intro ordered a hnd i hi hget
    have hmem : a ∈ ordered := hget ▸ List.get_mem ordered i hi
    have hidx : List.indexOf a ordered = i := by
      have h := List.get_indexOf hnd ⟨i, hi⟩
      rw [hget] at h
      exact h
    refine ⟨fun hend => by simp [moveOrder, hmem, hidx, hend], ?_, ?_, ?_⟩
    · intro h0
      simp [moveOrder, hmem, hidx, h0]
    · intro h2
      have hne : ¬(i + 1 = ordered.length) := by omega
      simp only [moveOrder, if_pos hmem, hidx, if_true, if_neg hne,
        swapAdj_eq ordered i h2]
    · intro j hij
      subst hij
      have hb : j + 1 + 1 ≤ ordered.length := hi
      simp only [moveOrder, if_pos hmem, hidx, Bool.false_eq_true, if_false,
        if_neg (by omega : ¬(j + 1 = 0)), Nat.add_sub_cancel,
        swapAdj_eq ordered j (by omega)]
  · intro reg d fwd w a screenW screenH lay hw
    constructor
    · intro hnone
      simp only [moveActiveWindow, if_neg hw, hnone]
    · intro newOrd hsome
      have hfix : stableOrder newOrd w = newOrd := by
        have hperm := moveOrder_some_perm _ a fwd newOrd hsome
        refine stableOrder_fixed newOrd w ?_ ?_
        · exact hperm.nodup_iff.mpr (stableOrder_nodup _ _)
        · intro b
          rw [hperm.mem_iff]
          exact stableOrder_mem _ _ b
      simp only [moveActiveWindow, if_neg hw, hsome]
      refine ⟨trivial, ?_⟩
      rw [tileWindows_fst_of_ne_nil _ _ _ _ _ _ hw,
        Registry.getOrd_store_self, hfix, Registry.store_self]

theorem C4_move_swap_w :
    moveOrder [10, 20, 30] 20 true =
      some (([10, 20, 30] : List Window).take 1 ++
        ([10, 20, 30] : List Window).get ⟨2, by decide⟩ ::
        ([10, 20, 30] : List Window).get ⟨1, by decide⟩ ::
        ([10, 20, 30] : List Window).drop 3) ∧
    (moveActiveWindow Registry.emp 0 true [10, 20, 30] (some 20) [10, 20, 30]
        100 100 ⟨0, 0, 0, 0, 0⟩).2 = true ∧
    (moveActiveWindow Registry.emp 0 true [10, 20, 30] (some 20) [10, 20, 30]
        100 100 ⟨0, 0, 0, 0, 0⟩).1 0 = some [10, 30, 20] := by
  have h2 := (C4_move_swap.2.1 [10, 20, 30] 20 (by decide) 1 (by decide)
    (by decide)).2.2.1 (by decide)
  have h3 := (C4_move_swap.2.2 Registry.emp 0 true [10, 20, 30] 20 100 100
    ⟨0, 0, 0, 0, 0⟩ (by decide)).2 [10, 30, 20] (by decide)
  exact ⟨h2, h3.1, h3.2⟩

theorem stableOrder_ne_nil (stored current : List Window) (hc : current ≠ []) :
    stableOrder stored current ≠ [] := by
  intro h
  obtain ⟨a, ha⟩ := List.exists_mem_of_ne_nil current hc
  have hmem := (stableOrder_mem stored current a).mpr ha
  rw [h] at hmem
  exact List.not_mem_nil a hmem

theorem goodReg_store (reg : Registry) (d : Nat) (ord : List Window)
    (hreg : goodReg reg) (hord : ord ≠ []) : goodReg (reg.store d ord) := by
  intro e l hl
  by_cases he : e = d
  · subst he
    rw [Registry.store_self] at hl
    rw [← Option.some_inj.mp hl]
    exact hord
  · exact hreg e l (by simpa [Registry.store, he] using hl)

theorem goodReg_eraseOrd (reg : Registry) (d : Nat) (hreg : goodReg reg) :
    goodReg (reg.eraseOrd d) := by
  intro e l hl
  by_cases he : e = d
  · simp [Registry.eraseOrd, he] at hl
  · exact hreg e l (by simpa [Registry.eraseOrd, he] using hl)

theorem goodReg_tileWindows (reg : Registry) (d : Nat) (w : List Window)
    (sw sh : Int) (lay : DesktopLayout) (hreg : goodReg reg) :
    goodReg (tileWindows reg d w sw sh lay).1 := by
  by_cases hw : w = []
  · subst hw
    simp only [tileWindows, if_pos rfl]
    exact goodReg_eraseOrd reg d hreg
  · rw [tileWindows_fst_of_ne_nil _ _ _ _ _ _ hw]
    exact goodReg_store _ _ _ hreg (stableOrder_ne_nil _ _ hw)

theorem moveOrder_some_ne_nil (ord : List Window) (a : Window) (fwd : Bool)
    (newOrd : List Window) (h : moveOrder ord a fwd = some newOrd)
    (hord : ord ≠ []) : newOrd ≠ [] := by
  have hperm := moveOrder_some_perm ord a fwd newOrd h
  intro hnil
  apply hord
  have := hperm.length_eq
  rw [hnil] at this
  exact List.eq_nil_of_length_eq_zero this.symm

theorem goodReg_moveActiveWindow (reg : Registry) (d : Nat) (fwd : Bool)
    (w : List Window) (active : Option Window) (w2 : List Window)
    (sw sh : Int) (lay : DesktopLayout) (hreg : goodReg reg) :
    goodReg (moveActiveWindow reg d fwd w active w2 sw sh lay).1 := by
  by_cases hw : w = []
  · subst hw
    simp only [moveActiveWindow, if_pos rfl]
    exact goodReg_eraseOrd reg d hreg
  · have hgood1 : goodReg (reconcile reg d w).2 :=
      goodReg_store _ _ _ hreg (stableOrder_ne_nil _ _ hw)
    cases active with
    | none => simpa only [moveActiveWindow, if_neg hw] using hgood1
    | some a =>
      cases hmo : moveOrder (reconcile reg d w).1 a fwd with
      | none => simpa only [moveActiveWindow, if_neg hw, hmo] using hgood1
      | some newOrd =>
        simp only [moveActiveWindow, if_neg hw, hmo]
        refine goodReg_tileWindows _ _ _ _ _ _ ?_
        refine goodReg_store _ _ _ hgood1 ?_
        exact moveOrder_some_ne_nil _ a fwd newOrd hmo
          (stableOrder_ne_nil _ _ hw)

/-- Claim C7: a `tileWindows` apply or a `moveActiveWindow` request made
while the group's observed membership is empty deletes the group's
stored order from the registry entirely, and consequently — starting
from the empty registry — every order present in the registry after any
sequence of engine operations is non-empty. -/
theorem C7_empty_discards_order :
    (∀ (reg : Registry) (d : Nat) (screenW screenH : Int)
        (lay : DesktopLayout),
      (tileWindows reg d [] screenW screenH lay).1 d = none) ∧
    (∀ (reg : Registry) (d : Nat) (fwd : Bool) (active : Option Window)
        (w2 : List Window) (screenW screenH : Int) (lay : DesktopLayout),
      (moveActiveWindow reg d fwd [] active w2 screenW screenH lay).1 d =
        none) ∧
    (∀ ops : List EngineOp, goodReg (List.foldl runOp Registry.emp ops)) := by
  have hfold : ∀ (ops : List EngineOp) (reg : Registry), goodReg reg →
      goodReg (List.foldl runOp reg ops) := by
    intro ops
    induction ops with
    | nil => intro reg h; exact h
    | cons op ops ih =>
      intro reg h
      refine ih (runOp reg op) ?_
      cases op with
      | tile d w sw sh lay => exact goodReg_tileWindows reg d w sw sh lay h
      | move d f w a w2 sw sh lay =>
        exact goodReg_moveActiveWindow reg d f w a w2 sw sh lay h
  refine ⟨?_, ?_, fun ops => hfold ops Registry.emp (fun d l hl => by
    simp [Registry.emp] at hl)⟩
  · intro reg d sw sh lay
    simp [tileWindows, Registry.eraseOrd]
  · intro reg d fwd active w2 sw sh lay
    simp [moveActiveWindow, Registry.eraseOrd]

theorem C7_empty_discards_order_w :
    (tileWindows Registry.emp 0 [] 100 100 ⟨0, 0, 0, 0, 0⟩).1 0 = none ∧
    ([5] : List Window) ≠ [] :=
  ⟨C7_empty_discards_order.1 Registry.emp 0 100 100 ⟨0, 0, 0, 0, 0⟩,
    C7_empty_discards_order.2.2 [EngineOp.tile 0 [5] 100 100 ⟨0, 0, 0, 0, 0⟩]
      0 [5] (by decide)⟩

theorem schedRun_append (D : Nat) (as : List Ev) :
    ∀ (s : Option Nat) (bs : List Ev),
      schedRun D s (as ++ bs) =
        ((schedRun D (schedRun D s as).1 bs).1,
          (schedRun D s as).2 ++ (schedRun D (schedRun D s as).1 bs).2) := by
  induction as with
  | nil => intro s bs; simp [schedRun]
  | cons e as ih =>
    intro s bs
    simp only [List.cons_append, schedRun, List.append_eq]
    rw [ih]
    simp [List.append_assoc]

theorem schedRun_pre (D tN : Nat) :
    ∀ (pre : List Ev) (s : Option Nat),
      (∀ due, s = some due → tN < due) →
      (∀ t, Ev.notify t ∈ pre → tN < t + D) →
      (∀ t, Ev.tick t ∈ pre → t ≤ tN) →
      (schedRun D s pre).2 = [] ∧
      (∀ due, (schedRun D s pre).1 = some due → tN < due) := by
  intro pre
  induction pre with
  | nil => intro s hs _ _; exact ⟨rfl, hs⟩
  | cons e es ih =>
    intro s hs hn ht
    cases e with
    | notify t =>
      have hlt : tN < t + D := hn t (List.mem_cons_self _ _)
      have hrest := ih (some (t + D))
        (fun due h => by rw [← Option.some_inj.mp h]; exact hlt)
        (fun u hu => hn u (List.mem_cons_of_mem _ hu))
        (fun u hu => ht u (List.mem_cons_of_mem _ hu))
      simpa only [schedRun, schedStep, Option.toList_none, List.nil_append]
        using hrest
    | tick t =>
      have htt : t ≤ tN := ht t (List.mem_cons_self _ _)
      cases s with
      | none =>
        have hrest := ih none (by simp)
          (fun u hu => hn u (List.mem_cons_of_mem _ hu))
          (fun u hu => ht u (List.mem_cons_of_mem _ hu))
        simpa only [schedRun, schedStep, Option.toList_none, List.nil_append]
          using hrest
      | some due =>
        have hdue : tN < due := hs due rfl
        have hnle : ¬due ≤ t := by omega
        have hrest := ih (some due) hs
          (fun u hu => hn u (List.mem_cons_of_mem _ hu))
          (fun u hu => ht u (List.mem_cons_of_mem _ hu))
        simpa only [schedRun, schedStep, if_neg hnle, Option.toList_none,
          List.nil_append] using hrest

theorem schedRun_ticks_none (D : Nat) :
    ∀ us : List Nat, schedRun D none (us.map Ev.tick) = (none, []) := by
  intro us
  induction us with
  | nil => rfl
  | cons u us ih => simp [schedRun, schedStep, ih]

theorem schedRun_ticks_some (D : Nat) :
    ∀ (us : List Nat) (due : Nat),
      (schedRun D (some due) (us.map Ev.tick)).2 =
        (us.find? fun u => due ≤ u).toList := by
  intro us
  induction us with
  | nil => intro due; rfl
  | cons u us ih =>
    intro due
    by_cases h : due ≤ u
    · rw [List.map_cons, List.find?_cons_of_pos _ (by simpa using h)]
      simp [schedRun, schedStep, if_pos h, schedRun_ticks_none]
    · rw [List.map_cons, List.find?_cons_of_neg _ (by simpa using h)]
      simpa [schedRun, schedStep, if_neg h] using ih due

/-- Claim C9: every structural-change notification at time `t` overwrites
the pending due time with `t + D` and triggers no recompute by itself; a
tick fires and clears a pending due time exactly when it has been
reached; and a burst of notifications all falling within one debounce
interval of the last one, followed by ticks, produces recomputes exactly
at the first tick at or after the last notification's time plus the
debounce interval — one recompute when such a tick exists, none
otherwise. -/
theorem C9_debounce_coalesce :
    (∀ (D : Nat) (s : Option Nat) (t : Nat),
      schedStep D s (Ev.notify t) = (some (t + D), none)) ∧
    (∀ D due t : Nat, due ≤ t →
      schedStep D (some due) (Ev.tick t) = (none, some t)) ∧
    (∀ D due t : Nat, ¬due ≤ t →
      schedStep D (some due) (Ev.tick t) = (some due, none)) ∧
    (∀ (D tN : Nat) (pre : List Ev) (us : List Nat),
      (∀ t, Ev.notify t ∈ pre → tN < t + D) →
      (∀ t, Ev.tick t ∈ pre → t ≤ tN) →
      (schedRun D none (pre ++ Ev.notify tN :: us.map Ev.tick)).2 =
        (us.find? fun u => tN + D ≤ u).toList) := by
  refine ⟨fun D s t => rfl, fun D due t h => by simp [schedStep, h],
    fun D due t h => by simp [schedStep, h], ?_⟩
  intro D tN pre us hn ht
  obtain ⟨hfired, _⟩ := schedRun_pre D tN pre none (by simp) hn ht
  rw [schedRun_append, hfired]
  simp only [List.nil_append, schedRun, schedStep, Option.toList_none]
  rw [schedRun_ticks_some]

theorem C9_debounce_coalesce_w :
    (schedRun 10 none
        ([Ev.notify 0, Ev.tick 3, Ev.notify 5] ++
          Ev.notify 9 :: ([12, 19, 25].map Ev.tick))).2 =
      (([12, 19, 25] : List Nat).find? fun u => 9 + 10 ≤ u).toList := by
  refine C9_debounce_coalesce.2.2.2 10 9 [Ev.notify 0, Ev.tick 3, Ev.notify 5]
    [12, 19, 25] ?_ ?_
  · intro t htm
    simp at htm
    rcases htm with rfl | rfl <;> decide
  · intro t htm
    simp at htm
    subst htm
    decide
